import Mathlib

/-!
Verification of the `prefer-object-spread` lint rule
(`src/rules/preferObjectSpreadRule.ts`) and the JSON formatter
(`formatters/jsonFormatter.ts`) of this repository.

The syntax tree of the host (the TypeScript compiler API) is embedded
shallowly: a node carries its kind, its trivia-skipped start offset
(`getStart`), its end offset (`end`, called `stop` here since `end` is a
keyword), the identifier text when it is an identifier, and its structured
children.  For a call expression the children are the callee followed by
the arguments, and the node additionally records the argument list's
`hasTrailingComma` flag and `end` offset (`argsEnd`), and whether an
argument list is present at all (`argsPresent`, which is `false` for a
`new C` expression written without parentheses).
-/

/-- The syntax kinds this rule inspects (the tag-based checks of the source:
`isCallExpression`, `isPropertyAccessExpression`, `isIdentifier`,
`isObjectLiteralExpression`, `isSpreadElement`, `needsParens`, and the parent
kinds read by `isReturnValueUsed`). -/
inductive NodeKind : Type where
  | identifier
  | propertyAccessExpression
  | callExpression
  | objectLiteralExpression
  | spreadElement
  | conditionalExpression
  | binaryExpression
  | parenthesizedExpression
  | newExpression
  | variableDeclaration
  | propertyAssignment
  | propertyDeclaration
  | returnStatement
  | bindingElement
  | arrayLiteralExpression
  | expressionStatement
  | equalsToken
  | plusEqualsToken
  | sourceFileKind
  | otherKind
deriving DecidableEq, Repr

/-- The scalar data of one syntax node. -/
structure NodeData where
  kind : NodeKind
  start : Nat
  stop : Nat
  text : String
  argsPresent : Bool
  hasTrailingComma : Bool
  argsEnd : Nat
deriving DecidableEq, Repr

/-- A syntax node: its data together with its structured children. -/
inductive Node : Type where
  | mk : NodeData → List Node → Node

def Node.data : Node → NodeData
  | .mk d _ => d

/-- Identity test standing for the reference equality that
`arguments.indexOf(node)` performs in the source: in a parsed tree a node is
determined by its scalar data, since the source span pins the node. -/
def Node.same (a b : Node) : Bool := a.data == b.data

def Node.children : Node → List Node
  | .mk _ c => c

def Node.kind (n : Node) : NodeKind := n.data.kind

def Node.start (n : Node) : Nat := n.data.start

def Node.stop (n : Node) : Nat := n.data.stop

def Node.text (n : Node) : String := n.data.text

def Node.argsPresent (n : Node) : Bool := n.data.argsPresent

def Node.hasTrailingComma (n : Node) : Bool := n.data.hasTrailingComma

def Node.argsEnd (n : Node) : Nat := n.data.argsEnd

/-- `node.arguments` of a call or `new` expression: the children after the
callee. -/
def Node.arguments (n : Node) : List Node := n.children.tail

/-- `node.expression` of a call expression: its first child. -/
def Node.callee (n : Node) : Option Node := n.children.head?

/-- `node.operatorToken` of a binary expression: the middle child of
`[left, operatorToken, right]`. -/
def Node.operatorToken (n : Node) : Option Node := n.children[1]?

/-- The right operand of a binary expression `[left, operatorToken, right]`. -/
def Node.rightOperand (n : Node) : Option Node := n.children[2]?

/-- The left operand of a binary expression. -/
def Node.leftOperand (n : Node) : Option Node := n.children[0]?

/-- `Lint.Replacement`: replace `length` characters starting at `start` with
`text`. -/
structure Replacement where
  start : Nat
  length : Nat
  text : String
deriving DecidableEq, Repr

def Replacement.stop (r : Replacement) : Nat := r.start + r.length

/-- `Replacement.replaceFromTo(start, end, text)`. -/
def Replacement.replaceFromTo (s e : Nat) (t : String) : Replacement :=
  ⟨s, e - s, t⟩

/-- `Replacement.deleteFromTo(start, end)`. -/
def Replacement.deleteFromTo (s e : Nat) : Replacement := ⟨s, e - s, ""⟩

/-- `Replacement.deleteText(start, length)`. -/
def Replacement.deleteText (s len : Nat) : Replacement := ⟨s, len, ""⟩

/-- `Replacement.appendText(pos, text)`: a zero-length insertion. -/
def Replacement.appendText (pos : Nat) (t : String) : Replacement :=
  ⟨pos, 0, t⟩

/-- `Rule.FAILURE_STRING`. -/
def FAILURE_STRING : String := "Use the object spread operator instead."

/-- `Rule.ASSIGNMENT_FAILURE_STRING`. -/
def ASSIGNMENT_FAILURE_STRING : String :=
  "\x27Object.assign\x27 returns the first argument. Prefer object spread if you want a new object."

/-- A failure record as produced by `ctx.addFailureAtNode(node, message, fix)`. -/
structure Failure where
  node : Node
  message : String
  fix : List Replacement

/-- `needsParens` of the source: a conditional (ternary) or binary expression
must be parenthesized before it can be spread. -/
def needsParens (node : Node) : Bool :=
  match node.kind with
  | .conditionalExpression | .binaryExpression => true
  | _ => false

/-- `isReturnValueUsed` of the source: a single-level inspection of the parent
node's kind.  The source reads `node.parent`; here the parent is passed
explicitly by the walker. -/
def isReturnValueUsed (node parent : Node) : Bool :=
  match parent.kind with
  | .variableDeclaration
  | .propertyAssignment
  | .propertyDeclaration
  | .returnStatement
  | .bindingElement
  | .arrayLiteralExpression => true
  | .binaryExpression =>
      match parent.operatorToken with
      | some tok => tok.kind == .equalsToken
      | none => false
  | .newExpression
  | .callExpression =>
      parent.argsPresent && parent.arguments.any (fun a => Node.same a node)
  | _ => false

/-- The end offset of the last element of a list of property nodes
(`arg.properties[arg.properties.length - 1].end` in the source). -/
def lastStop (props : List Node) : Nat :=
  match props.getLast? with
  | some p => p.stop
  | none => 0

/-- The per-argument loop of `createFix` (`for (let i = 0; ...)`), written as
recursion over the argument list; `rest` plays the role of `args[i + 1 ...]`,
so `rest = []` is exactly `i === args.length - 1`. -/
def fixArgs (hasTrailingComma : Bool) (argsEnd : Nat) : List Node → List Replacement
  | [] => []
  | arg :: rest =>
    (if arg.kind = .objectLiteralExpression then
      if arg.children.isEmpty then
        -- remove empty object literal and the following comma if exists
        let e : Nat :=
          match rest with
          | next :: _ => next.start
          | [] => if hasTrailingComma then argsEnd else arg.stop
        [Replacement.deleteFromTo arg.start e]
      else
        -- remove open brace; remove trailing comma if exists and close brace
        [Replacement.deleteText arg.start 1,
         Replacement.deleteFromTo (lastStop arg.children) arg.stop]
    else
      Replacement.appendText arg.start (if needsParens arg then "...(" else "...") ::
        (if needsParens arg then [Replacement.appendText arg.stop ")"] else []))
    ++ fixArgs hasTrailingComma argsEnd rest

/-- `createFix` of the source: the two enclosing-brace replacements followed by
the per-argument replacements. -/
def createFix (node : Node) : List Replacement :=
  match node.arguments with
  | [] => []
  | a0 :: rest =>
    Replacement.replaceFromTo node.start a0.start "\x7b" ::
    (⟨node.stop - 1, 1, "\x7d"⟩ : Replacement) ::
    fixArgs node.hasTrailingComma node.argsEnd (a0 :: rest)

/-- The pattern test of `walk` (lines 50–54 of the source): a call expression
with at least one argument, callee `Object.assign`, and no spread argument. -/
def matchesPattern (n : Node) : Bool :=
  (n.kind == .callExpression) &&
  !n.arguments.isEmpty &&
  (match n.callee with
   | some callee =>
     (callee.kind == .propertyAccessExpression) &&
     (match callee.children with
      | [recv, nm] =>
        (nm.text == "assign") && (recv.kind == .identifier) && (recv.text == "Object")
      | _ => false)
   | none => false) &&
  !(n.arguments.any (fun a => a.kind == .spreadElement))

/-- The body of the walker's callback `cb` for one node: the failures added for
that node.  `hasSideEffectsCtor` is the external oracle
`hasSideEffects(·, SideEffectOptions.Constructor)` of the `tsutils` library. -/
def check (hasSideEffectsCtor : Node → Bool) (parent n : Node) : List Failure :=
  if matchesPattern n then
    match n.arguments with
    | [] => []
    | a0 :: _ =>
      if a0.kind == .objectLiteralExpression then
        [⟨n, FAILURE_STRING, createFix n⟩]
      else if isReturnValueUsed n parent && !hasSideEffectsCtor a0 then
        [⟨n, ASSIGNMENT_FAILURE_STRING, createFix n⟩]
      else []
  else []

mutual
/-- The recursive callback `cb` of `walk`: report on the node, then
`ts.forEachChild(node, cb)`. -/
def walkNode (hasSideEffectsCtor : Node → Bool) (parent : Node) : Node → List Failure
  | .mk d cs =>
    check hasSideEffectsCtor parent (.mk d cs) ++
      walkList hasSideEffectsCtor (.mk d cs) cs

/-- `ts.forEachChild` over a child list, accumulating the reported failures. -/
def walkList (hasSideEffectsCtor : Node → Bool) (parent : Node) : List Node → List Failure
  | [] => []
  | c :: cs =>
    walkNode hasSideEffectsCtor parent c ++ walkList hasSideEffectsCtor parent cs
end

/-- `walk` of the source: `ts.forEachChild(ctx.sourceFile, cb)`. -/
def walk (hasSideEffectsCtor : Node → Bool) (sourceFile : Node) : List Failure :=
  walkList hasSideEffectsCtor sourceFile sourceFile.children

mutual
/-- Depth-first pre-order traversal of a node, pairing every visited node with
its parent. -/
def preNode (parent : Node) : Node → List (Node × Node)
  | .mk d cs => (parent, .mk d cs) :: preList (.mk d cs) cs

/-- Depth-first pre-order traversal of a child list. -/
def preList (parent : Node) : List Node → List (Node × Node)
  | [] => []
  | c :: cs => preNode parent c ++ preList parent cs
end

/-- The document-order sequence of (parent, node) pairs below a source file. -/
def preorderWithParents (sourceFile : Node) : List (Node × Node) :=
  preList sourceFile sourceFile.children

/-- Ordering of replacements for simultaneous application: by start offset,
ties broken so that a zero-length insertion at an offset precedes a
replacement that consumes text from that same offset. -/
def opLe (a b : Replacement) : Bool :=
  a.start < b.start || (a.start == b.start && a.stop ≤ b.stop)

/-- Insert one replacement into a list sorted by `opLe`. -/
def insertOp (r : Replacement) : List Replacement → List Replacement
  | [] => [r]
  | x :: xs => if opLe r x then r :: x :: xs else x :: insertOp r xs

/-- Insertion sort of replacements by `opLe`. -/
def sortOps : List Replacement → List Replacement
  | [] => []
  | r :: rs => insertOp r (sortOps rs)

/-- The characters of the original text in the half-open offset range
`[a, b)`. -/
def sliceText (text : List Char) (a b : Nat) : List Char :=
  (text.drop a).take (b - a)

/-- Apply a sorted, non-overlapping list of replacements to `text`, the part
before offset `pos` having already been emitted. -/
def spliceFrom (text : List Char) (pos : Nat) : List Replacement → List Char
  | [] => text.drop pos
  | r :: rest => sliceText text pos r.start ++ r.text.data ++ spliceFrom text r.stop rest

/-- Apply a set of replacements simultaneously, by offset, to the original
text. -/
def applyEdits (text : String) (ops : List Replacement) : String :=
  ⟨spliceFrom text.data 0 (sortOps ops)⟩

/-- Modelled from the spec: a Failure-like record seen by the JSON formatter
exposes a `toSerializable()`-style self-description (`toJson()` in the
formatter's loop, defined on `RuleFailure` outside this fragment); it is
modelled as the JSON serialization text that self-description denotes. -/
structure RuleFailure where
  toJsonText : String

/-- `JSON.stringify` applied to an array of values whose individual
serializations are the given texts: the compact form, one pair of brackets
around the comma-joined element serializations, with no added whitespace. -/
def stringifyArray (elems : List String) : String :=
  "[" ++ String.intercalate "," elems ++ "]"

/-- `JsonFormatter.format`: push each failure's `toJson()` onto an array in
loop order, then `JSON.stringify` the array. -/
def JsonFormatter.format (failures : List RuleFailure) : String :=
  stringifyArray (failures.foldl (fun acc f => acc ++ [f.toJsonText]) [])

/-!  Concrete syntax trees used by the example-level statements.  Offsets are
the character offsets into the quoted source text of each example. -/

/-- The callee `Object.assign` starting at offset `s`: a property access whose
receiver is the identifier `Object` and whose name is `assign`. -/
def objectAssignCallee (s : Nat) : Node :=
  .mk ⟨.propertyAccessExpression, s, s + 13, "", true, false, 0⟩
    [ .mk ⟨.identifier, s, s + 6, "Object", true, false, 0⟩ [],
      .mk ⟨.identifier, s + 7, s + 13, "assign", true, false, 0⟩ [] ]

/-- The first argument `{}` of `Object.assign({}, {a: 1}, b)`. -/
def emptyObjArg : Node := .mk ⟨.objectLiteralExpression, 14, 16, "", true, false, 0⟩ []

/-- The second argument `{a: 1}` of `Object.assign({}, {a: 1}, b)`. -/
def litObjArg : Node := .mk ⟨.objectLiteralExpression, 18, 24, "", true, false, 0⟩
  [ .mk ⟨.propertyAssignment, 19, 23, "", true, false, 0⟩ [] ]

/-- The third argument `b` of `Object.assign({}, {a: 1}, b)`. -/
def bIdentArg : Node := .mk ⟨.identifier, 26, 27, "b", true, false, 0⟩ []

/-- The call `Object.assign({}, {a: 1}, b)` as parsed from that 28-character
text. -/
def emptyFirstCall : Node := .mk ⟨.callExpression, 0, 28, "", true, false, 27⟩
  [ objectAssignCallee 0, emptyObjArg, litObjArg, bIdentArg ]

/-- The source text of `emptyFirstCall`. -/
def emptyFirstText : String := "Object.assign(\x7b\x7d, \x7ba: 1\x7d, b)"

/-- The call `Object.assign({a: 1}, b, {})` as parsed from that 28-character
text (no trailing comma). -/
def trailingEmptyCall : Node := .mk ⟨.callExpression, 0, 28, "", true, false, 27⟩
  [ objectAssignCallee 0,
    .mk ⟨.objectLiteralExpression, 14, 20, "", true, false, 0⟩
      [ .mk ⟨.propertyAssignment, 15, 19, "", true, false, 0⟩ [] ],
    .mk ⟨.identifier, 22, 23, "b", true, false, 0⟩ [],
    .mk ⟨.objectLiteralExpression, 25, 27, "", true, false, 0⟩ [] ]

/-- The source text of `trailingEmptyCall`. -/
def trailingEmptyText : String := "Object.assign(\x7ba: 1\x7d, b, \x7b\x7d)"

/-- The first argument `cond ? a : b` of `Object.assign(cond ? a : b, c)`. -/
def ternaryArg : Node := .mk ⟨.conditionalExpression, 14, 26, "", true, false, 0⟩ []

/-- The second argument `c` of `Object.assign(cond ? a : b, c)`. -/
def cIdentArg : Node := .mk ⟨.identifier, 28, 29, "c", true, false, 0⟩ []

/-- The call `Object.assign(cond ? a : b, c)` as parsed from that 30-character
text. -/
def ternaryFirstCall : Node := .mk ⟨.callExpression, 0, 30, "", true, false, 29⟩
  [ objectAssignCallee 0, ternaryArg, cIdentArg ]

/-- The source text of `ternaryFirstCall`. -/
def ternaryFirstText : String := "Object.assign(cond ? a : b, c)"

/-- The inner call of `const x = Object.assign(Object.assign(\x7b\x7d, a), b)`:
`Object.assign(\x7b\x7d, a)` at offsets 24–44 of that text. -/
def innerAssignCall : Node := .mk ⟨.callExpression, 24, 44, "", true, false, 43⟩
  [ objectAssignCallee 24,
    .mk ⟨.objectLiteralExpression, 38, 40, "", true, false, 0⟩ [],
    .mk ⟨.identifier, 42, 43, "a", true, false, 0⟩ [] ]

/-- The outer call `Object.assign(Object.assign(\x7b\x7d, a), b)` at offsets
10–48. -/
def outerAssignCall : Node := .mk ⟨.callExpression, 10, 48, "", true, false, 47⟩
  [ objectAssignCallee 10,
    innerAssignCall,
    .mk ⟨.identifier, 46, 47, "b", true, false, 0⟩ [] ]

/-- The declaration `x = Object.assign(Object.assign(\x7b\x7d, a), b)` inside the
`const` statement. -/
def xVarDecl : Node := .mk ⟨.variableDeclaration, 6, 48, "", true, false, 0⟩
  [ .mk ⟨.identifier, 6, 7, "x", true, false, 0⟩ [], outerAssignCall ]

/-- The source file `const x = Object.assign(Object.assign(\x7b\x7d, a), b)`. -/
def nestedSourceFile : Node := .mk ⟨.sourceFileKind, 0, 48, "", true, false, 0⟩
  [ xVarDecl ]

/-- The call `Object.assign(a, b)` at offsets 0–19 (used both as the left-hand
side of `Object.assign(a, b) = c` and as the callee of
`Object.assign(a, b)(x)`). -/
def plainAssignCall : Node := .mk ⟨.callExpression, 0, 19, "", true, false, 18⟩
  [ objectAssignCallee 0,
    .mk ⟨.identifier, 14, 15, "a", true, false, 0⟩ [],
    .mk ⟨.identifier, 17, 18, "b", true, false, 0⟩ [] ]

/-- The `=` token of `Object.assign(a, b) = c`. -/
def eqTokNode : Node := .mk ⟨.equalsToken, 20, 21, "=", true, false, 0⟩ []

/-- The right-hand side `c` of `Object.assign(a, b) = c`. -/
def cRhsIdent : Node := .mk ⟨.identifier, 22, 23, "c", true, false, 0⟩ []

/-- The assignment `Object.assign(a, b) = c`, a binary expression whose left
operand is `plainAssignCall`. -/
def lhsAssignParent : Node := .mk ⟨.binaryExpression, 0, 23, "", true, false, 0⟩
  [ plainAssignCall, eqTokNode, cRhsIdent ]

/-- The call `Object.assign(a, b)(x)`, whose callee (not argument) is
`plainAssignCall`. -/
def calleePosParent : Node := .mk ⟨.callExpression, 0, 22, "", true, false, 21⟩
  [ plainAssignCall,
    .mk ⟨.identifier, 20, 21, "x", true, false, 0⟩ [] ]

/-- A `new C` expression written without parentheses: no argument list is
present. -/
def newNoParens : Node := .mk ⟨.newExpression, 0, 5, "", false, false, 0⟩
  [ .mk ⟨.identifier, 4, 5, "C", true, false, 0⟩ [] ]

/-- A call `Object.assign(...arr)` whose single argument is a spread
element. -/
def spreadArgCall : Node := .mk ⟨.callExpression, 0, 21, "", true, false, 20⟩
  [ objectAssignCallee 0,
    .mk ⟨.spreadElement, 14, 20, "", true, false, 0⟩
      [ .mk ⟨.identifier, 17, 20, "arr", true, false, 0⟩ [] ] ]

theorem foldl_push_eq_map {α β : Type} (g : α → β) (l : List α) (acc : List β) :
    l.foldl (fun a f => a ++ [g f]) acc = acc ++ l.map g := by
  induction l generalizing acc with
  | nil => simp
  | cons x xs ih => simp [ih]

/-- C9: for every sequence of failure records, the JSON formatter returns a
single JSON array string containing each record's own serialization, in the
same order and with the same count as the input, with no additional framing,
indentation, or reordering. -/
theorem jsonFormatter_format_spec (failures : List RuleFailure) :
    JsonFormatter.format failures =
      "[" ++ String.intercalate "," (failures.map RuleFailure.toJsonText) ++ "]" ∧
    (failures.map RuleFailure.toJsonText).length = failures.length := by
  refine ⟨?_, by simp⟩
  rw [JsonFormatter.format, stringifyArray, foldl_push_eq_map RuleFailure.toJsonText]
  simp

/-- C5 counterexample: applying the fix produced for
`Object.assign(\x7ba: 1\x7d, b, \x7b\x7d)` does not yield `\x7ba: 1, ...b\x7d`;
the separator preceding the trailing empty literal survives. -/
theorem trailingEmpty_fix_counterexample :
    applyEdits trailingEmptyText (createFix trailingEmptyCall) = "\x7ba: 1, ...b, \x7d" ∧
    applyEdits trailingEmptyText (createFix trailingEmptyCall) ≠ "\x7ba: 1, ...b\x7d" := by
  constructor
  · rfl
  · decide

/-- C5 (amended): applying the fix produced for
`Object.assign(\x7ba: 1\x7d, b, \x7b\x7d)` (no trailing comma) yields exactly
`\x7ba: 1, ...b, \x7d`; the trailing empty object literal itself is elided, but
the separator preceding it is kept, because the deletion of an empty-literal
argument is only ever extended forward (to a following argument's start or to
the argument list's end), never backward. -/
theorem trailingEmpty_fix_amended :
    applyEdits trailingEmptyText (createFix trailingEmptyCall) = "\x7ba: 1, ...b, \x7d" := by
  rfl

theorem needsParens_iff (n : Node) :
    needsParens n = true ↔
      (n.kind = NodeKind.conditionalExpression ∨ n.kind = NodeKind.binaryExpression) := by
  cases h : n.kind <;> simp [needsParens, h]

theorem fixArgs_cons (htc : Bool) (ae : Nat) (arg : Node) (rest : List Node) :
    fixArgs htc ae (arg :: rest) =
      (if arg.kind = NodeKind.objectLiteralExpression then
        if arg.children.isEmpty then
          [Replacement.deleteFromTo arg.start
            (match rest with
             | next :: _ => next.start
             | [] => if htc then ae else arg.stop)]
        else
          [Replacement.deleteText arg.start 1,
           Replacement.deleteFromTo (lastStop arg.children) arg.stop]
      else
        Replacement.appendText arg.start (if needsParens arg then "...(" else "...") ::
          (if needsParens arg then [Replacement.appendText arg.stop ")"] else []))
      ++ fixArgs htc ae rest := rfl

theorem mem_fixArgs_append (htc : Bool) (ae : Nat) (pre l : List Node)
    (r : Replacement) (h : r ∈ fixArgs htc ae l) : r ∈ fixArgs htc ae (pre ++ l) := by
  induction pre with
  | nil => simpa using h
  | cons p ps ih =>
    rw [List.cons_append, fixArgs_cons]
    exact List.mem_append_right _ ih

theorem mem_createFix (n : Node) (r : Replacement)
    (h : r ∈ fixArgs n.hasTrailingComma n.argsEnd n.arguments)
    (hne : n.arguments ≠ []) : r ∈ createFix n := by
  cases ha : n.arguments with
  | nil => exact absurd ha hne
  | cons a0 rest =>
    rw [ha] at h
    simp only [createFix, ha]
    exact List.mem_cons_of_mem _ (List.mem_cons_of_mem _ h)

/-- C4: for every qualifying call and every argument that is not an object
literal, the fix inserts the spread marker `...` immediately before the
argument, and wraps the argument in parentheses exactly when its kind is a
conditional (ternary) or binary expression; in particular
`Object.assign(cond ? a : b, c)` is fixed to `\x7b...(cond ? a : b), ...c\x7d`. -/
theorem spread_marker_parens :
    (∀ (htc : Bool) (ae : Nat) (arg : Node) (post : List Node),
        arg.kind ≠ NodeKind.objectLiteralExpression →
        fixArgs htc ae (arg :: post) =
          (if arg.kind = NodeKind.conditionalExpression ∨ arg.kind = NodeKind.binaryExpression then
            [Replacement.appendText arg.start "...(", Replacement.appendText arg.stop ")"]
          else
            [Replacement.appendText arg.start "..."]) ++ fixArgs htc ae post) ∧
    (∀ (n : Node) (pre : List Node) (arg : Node) (post : List Node),
        n.arguments = pre ++ arg :: post →
        arg.kind ≠ NodeKind.objectLiteralExpression →
        Replacement.appendText arg.start
            (if arg.kind = NodeKind.conditionalExpression ∨ arg.kind = NodeKind.binaryExpression
             then "...(" else "...") ∈ createFix n ∧
        ((arg.kind = NodeKind.conditionalExpression ∨ arg.kind = NodeKind.binaryExpression) →
            Replacement.appendText arg.stop ")" ∈ createFix n)) ∧
    applyEdits ternaryFirstText (createFix ternaryFirstCall) =
      "\x7b...(cond ? a : b), ...c\x7d" := by
  have hfix : ∀ (htc : Bool) (ae : Nat) (arg : Node) (post : List Node),
      arg.kind ≠ NodeKind.objectLiteralExpression →
      fixArgs htc ae (arg :: post) =
        (if arg.kind = NodeKind.conditionalExpression ∨ arg.kind = NodeKind.binaryExpression then
          [Replacement.appendText arg.start "...(", Replacement.appendText arg.stop ")"]
        else
          [Replacement.appendText arg.start "..."]) ++ fixArgs htc ae post := by
    intro htc ae arg post hk
    rw [fixArgs_cons]
    by_cases hp : arg.kind = NodeKind.conditionalExpression ∨ arg.kind = NodeKind.binaryExpression
    · have hnp : needsParens arg = true := (needsParens_iff arg).mpr hp
      simp [hk, hnp, hp]
    · have hnp : needsParens arg = false := by
        cases h : needsParens arg
        · rfl
        · exact absurd ((needsParens_iff arg).mp h) hp
      simp [hk, hnp, hp]
  refine ⟨hfix, ?_, by rfl⟩
  intro n pre arg post ha hk
  have hne : n.arguments ≠ [] := by
    rw [ha]; exact List.append_ne_nil_of_right_ne_nil _ (List.cons_ne_nil _ _)
  have hmem0 : Replacement.appendText arg.start
      (if arg.kind = NodeKind.conditionalExpression ∨ arg.kind = NodeKind.binaryExpression
       then "...(" else "...") ∈ fixArgs n.hasTrailingComma n.argsEnd (arg :: post) := by
    rw [hfix n.hasTrailingComma n.argsEnd arg post hk]
    by_cases hp : arg.kind = NodeKind.conditionalExpression ∨ arg.kind = NodeKind.binaryExpression
    · simp [hp]
    · simp [hp]
  refine ⟨?_, ?_⟩
  · refine mem_createFix n _ ?_ hne
    rw [ha]
    exact mem_fixArgs_append _ _ pre _ _ hmem0
  · intro hp
    refine mem_createFix n _ ?_ hne
    rw [ha]
    refine mem_fixArgs_append _ _ pre _ _ ?_
    rw [hfix n.hasTrailingComma n.argsEnd arg post hk]
    simp [hp]

/-- C4 witness: the parts of `spread_marker_parens` instantiated at the
concrete call `Object.assign(cond ? a : b, c)` and its ternary first
argument. -/
theorem spread_marker_parens_witness :
    ternaryArg.kind ≠ NodeKind.objectLiteralExpression ∧
    fixArgs false 29 [ternaryArg, cIdentArg] =
      [Replacement.appendText 14 "...(", Replacement.appendText 26 ")"] ++
        fixArgs false 29 [cIdentArg] ∧
    Replacement.appendText 14 "...(" ∈ createFix ternaryFirstCall := by
  have hk : ternaryArg.kind ≠ NodeKind.objectLiteralExpression := by decide
  refine ⟨hk, ?_, ?_⟩
  · have h := spread_marker_parens.1 false 29 ternaryArg [cIdentArg] hk
    simpa [ternaryArg] using h
  · have h := (spread_marker_parens.2.1 ternaryFirstCall [] ternaryArg [cIdentArg] rfl hk).1
    simpa [ternaryArg] using h

/-- C3: for every qualifying call and every argument that is an object literal
with zero properties, the fix deletes the whole span of the argument, extended
through to the next argument's start when a later argument follows, and
extended through to the end of the argument list when it is the last argument
and the call has a trailing separator; in particular
`Object.assign(\x7b\x7d, \x7ba: 1\x7d, b)` is fixed to `\x7ba: 1, ...b\x7d`. -/
theorem empty_literal_deletion :
    (∀ (htc : Bool) (ae : Nat) (arg : Node) (post : List Node),
        arg.kind = NodeKind.objectLiteralExpression → arg.children = [] →
        fixArgs htc ae (arg :: post) =
          Replacement.deleteFromTo arg.start
            (match post with
             | next :: _ => next.start
             | [] => if htc then ae else arg.stop) :: fixArgs htc ae post) ∧
    (∀ (n : Node) (pre : List Node) (arg : Node) (post : List Node),
        n.arguments = pre ++ arg :: post →
        arg.kind = NodeKind.objectLiteralExpression → arg.children = [] →
        Replacement.deleteFromTo arg.start
          (match post with
           | next :: _ => next.start
           | [] => if n.hasTrailingComma then n.argsEnd else arg.stop) ∈ createFix n) ∧
    applyEdits emptyFirstText (createFix emptyFirstCall) = "\x7ba: 1, ...b\x7d" := by
  have hfix : ∀ (htc : Bool) (ae : Nat) (arg : Node) (post : List Node),
      arg.kind = NodeKind.objectLiteralExpression → arg.children = [] →
      fixArgs htc ae (arg :: post) =
        Replacement.deleteFromTo arg.start
          (match post with
           | next :: _ => next.start
           | [] => if htc then ae else arg.stop) :: fixArgs htc ae post := by
    intro htc ae arg post hk hc
    rw [fixArgs_cons]
    simp [hk, hc]
  refine ⟨hfix, ?_, by rfl⟩
  intro n pre arg post ha hk hc
  have hne : n.arguments ≠ [] := by
    rw [ha]; exact List.append_ne_nil_of_right_ne_nil _ (List.cons_ne_nil _ _)
  refine mem_createFix n _ ?_ hne
  rw [ha]
  refine mem_fixArgs_append _ _ pre _ _ ?_
  rw [hfix n.hasTrailingComma n.argsEnd arg post hk hc]
  exact List.mem_cons_self _ _

/-- C3 witness: `empty_literal_deletion` instantiated at
`Object.assign(\x7b\x7d, \x7ba: 1\x7d, b)`, whose first argument `\x7b\x7d` is
followed by `\x7ba: 1\x7d` starting at offset 18, so the deletion of the empty
literal (offsets 14–16) is extended to offset 18. -/
theorem empty_literal_deletion_witness :
    emptyObjArg.kind = NodeKind.objectLiteralExpression ∧
    Replacement.deleteFromTo 14 18 ∈ createFix emptyFirstCall := by
  have hk : emptyObjArg.kind = NodeKind.objectLiteralExpression := rfl
  refine ⟨hk, ?_⟩
  have h := empty_literal_deletion.2.1 emptyFirstCall [] emptyObjArg
    [litObjArg, bIdentArg] rfl hk rfl
  simpa [emptyObjArg, litObjArg] using h

theorem returnValueUsed_parent_call_new (n parent : Node)
    (h : parent.kind = NodeKind.callExpression ∨ parent.kind = NodeKind.newExpression) :
    isReturnValueUsed n parent =
      (parent.argsPresent && parent.arguments.any (fun a => Node.same a n)) := by
  rcases h with h | h <;> rw [isReturnValueUsed, h]

/-- C6 counterexample: in `Object.assign(a, b) = c` the call is the left
operand of the plain assignment, not its right-hand side, yet the classifier
reports its value as consumed — refuting the claim that a binary-parent
expression is consumed only when it is the right-hand side. -/
theorem returnValueUsed_lhs_counterexample :
    isReturnValueUsed plainAssignCall lhsAssignParent = true ∧
    lhsAssignParent.kind = NodeKind.binaryExpression ∧
    lhsAssignParent.operatorToken = some eqTokNode ∧
    eqTokNode.kind = NodeKind.equalsToken ∧
    lhsAssignParent.leftOperand = some plainAssignCall ∧
    lhsAssignParent.rightOperand = some cRhsIdent ∧
    Node.same cRhsIdent plainAssignCall = false :=
  ⟨rfl, rfl, rfl, rfl, rfl, rfl, rfl⟩

/-- C6 (amended): for an expression whose parent is a binary expression, the
classifier reports the value as consumed if and only if the parent's operator
token is the plain assignment `=` — regardless of which operand position the
expression occupies; for an expression whose parent is a call or constructor
invocation, it reports consumed if and only if an argument list is present and
the expression appears among the arguments. -/
theorem returnValueUsed_amended :
    (∀ (n parent tok : Node),
        parent.kind = NodeKind.binaryExpression →
        parent.operatorToken = some tok →
        (isReturnValueUsed n parent = true ↔ tok.kind = NodeKind.equalsToken)) ∧
    (∀ (n parent : Node),
        (parent.kind = NodeKind.callExpression ∨ parent.kind = NodeKind.newExpression) →
        (isReturnValueUsed n parent = true ↔
          parent.argsPresent = true ∧ ∃ a ∈ parent.arguments, Node.same a n = true)) := by
  constructor
  · intro n parent tok hk ht
    rw [isReturnValueUsed, hk, ht]
    simp
  · intro n parent h
    rw [returnValueUsed_parent_call_new n parent h]
    simp [List.any_eq_true]

/-- C6 witness: `returnValueUsed_amended` instantiated at the assignment
`Object.assign(a, b) = c` (plain `=` operator, so consumed) and at the call
`Object.assign(a, b)(x)` (the call occupies callee position, so not
consumed). -/
theorem returnValueUsed_amended_witness :
    (isReturnValueUsed plainAssignCall lhsAssignParent = true ↔
      eqTokNode.kind = NodeKind.equalsToken) ∧
    (isReturnValueUsed plainAssignCall calleePosParent = true ↔
      calleePosParent.argsPresent = true ∧
        ∃ a ∈ calleePosParent.arguments, Node.same a plainAssignCall = true) :=
  ⟨returnValueUsed_amended.1 plainAssignCall lhsAssignParent eqTokNode rfl rfl,
   returnValueUsed_amended.2 plainAssignCall calleePosParent (Or.inl rfl)⟩

theorem check_cons (se : Node → Bool) (parent n a0 : Node) (rest : List Node)
    (hm : matchesPattern n = true) (ha : n.arguments = a0 :: rest) :
    check se parent n =
      if (a0.kind == NodeKind.objectLiteralExpression) = true then
        [⟨n, FAILURE_STRING, createFix n⟩]
      else if (isReturnValueUsed n parent && !se a0) = true then
        [⟨n, ASSIGNMENT_FAILURE_STRING, createFix n⟩]
      else [] := by
  rw [check, if_pos hm, ha]

/-- C10: for an expression whose parent is a call or `new` expression, the
classifier reports not consumed when the parent has no argument list at all or
when the expression is not among the parent's arguments (for example when it is
the callee); consequently a matched call whose first argument is not an object
literal is not reported in such a position. -/
theorem unused_when_not_argument :
    (∀ (n parent : Node),
        (parent.kind = NodeKind.callExpression ∨ parent.kind = NodeKind.newExpression) →
        parent.argsPresent = false →
        isReturnValueUsed n parent = false) ∧
    (∀ (n parent : Node),
        (parent.kind = NodeKind.callExpression ∨ parent.kind = NodeKind.newExpression) →
        (∀ a ∈ parent.arguments, Node.same a n = false) →
        isReturnValueUsed n parent = false) ∧
    (∀ (se : Node → Bool) (parent n a0 : Node) (rest : List Node),
        (parent.kind = NodeKind.callExpression ∨ parent.kind = NodeKind.newExpression) →
        n.arguments = a0 :: rest →
        a0.kind ≠ NodeKind.objectLiteralExpression →
        (parent.argsPresent = false ∨ ∀ a ∈ parent.arguments, Node.same a n = false) →
        check se parent n = []) := by
  have h1 : ∀ (n parent : Node),
      (parent.kind = NodeKind.callExpression ∨ parent.kind = NodeKind.newExpression) →
      parent.argsPresent = false →
      isReturnValueUsed n parent = false := by
    intro n parent h hp
    rw [returnValueUsed_parent_call_new n parent h, hp]
    rfl
  have h2 : ∀ (n parent : Node),
      (parent.kind = NodeKind.callExpression ∨ parent.kind = NodeKind.newExpression) →
      (∀ a ∈ parent.arguments, Node.same a n = false) →
      isReturnValueUsed n parent = false := by
    intro n parent h hall
    rw [returnValueUsed_parent_call_new n parent h]
    have : parent.arguments.any (fun a => Node.same a n) = false := by
      rw [List.any_eq_false]
      simpa using hall
    rw [this, Bool.and_false]
  refine ⟨h1, h2, ?_⟩
  intro se parent n a0 rest hpk ha hk hcase
  have hused : isReturnValueUsed n parent = false := by
    rcases hcase with hcase | hcase
    · exact h1 n parent hpk hcase
    · exact h2 n parent hpk hcase
  by_cases hm : matchesPattern n = true
  · have hk0 : (a0.kind == NodeKind.objectLiteralExpression) = false := by
      simpa using hk
    rw [check_cons se parent n a0 rest hm ha, hk0, hused]
    simp
  · rw [check, if_neg hm]

/-- C10 witness: `unused_when_not_argument` instantiated at `new C` written
without parentheses and at `Object.assign(a, b)(x)`, where `Object.assign(a, b)`
is the callee of its parent call and therefore not reported. -/
theorem unused_when_not_argument_witness :
    isReturnValueUsed plainAssignCall newNoParens = false ∧
    check (fun _ => false) calleePosParent plainAssignCall = [] := by
  constructor
  · exact unused_when_not_argument.1 plainAssignCall newNoParens (Or.inr rfl) rfl
  · refine unused_when_not_argument.2.2 (fun _ => false) calleePosParent plainAssignCall
      (.mk ⟨.identifier, 14, 15, "a", true, false, 0⟩ [])
      [.mk ⟨.identifier, 17, 18, "b", true, false, 0⟩ []]
      (Or.inl rfl) rfl (by decide) (Or.inr ?_)
    intro a haMem
    have hx : a = Node.mk ⟨.identifier, 20, 21, "x", true, false, 0⟩ [] := by
      simpa [calleePosParent, Node.arguments, Node.children] using haMem
    rw [hx]
    rfl

/-- C1: for every call matched by the rule, if the first argument is an object
literal the rule reports exactly one failure with `FAILURE_STRING` and a fix;
otherwise it reports exactly one failure with `ASSIGNMENT_FAILURE_STRING` and a
fix exactly when the return value is classified as used and the first argument
is free of constructor-category side effects; in all other cases it reports
nothing. -/
theorem check_dispatch (se : Node → Bool) (parent n a0 : Node) (rest : List Node)
    (hm : matchesPattern n = true) (ha : n.arguments = a0 :: rest) :
    (a0.kind = NodeKind.objectLiteralExpression →
        check se parent n = [⟨n, FAILURE_STRING, createFix n⟩]) ∧
    (a0.kind ≠ NodeKind.objectLiteralExpression →
        isReturnValueUsed n parent = true → se a0 = false →
        check se parent n = [⟨n, ASSIGNMENT_FAILURE_STRING, createFix n⟩]) ∧
    (a0.kind ≠ NodeKind.objectLiteralExpression →
        (isReturnValueUsed n parent = false ∨ se a0 = true) →
        check se parent n = []) := by
  rw [check_cons se parent n a0 rest hm ha]
  refine ⟨?_, ?_, ?_⟩
  · intro hk
    simp [hk]
  · intro hk hu hse
    simp [hk, hu, hse]
  · intro hk hcase
    rcases hcase with hu | hse
    · simp [hk, hu]
    · simp [hk, hse]

/-- C1 witness: `check_dispatch` instantiated at the literal-first call
`Object.assign(\x7b\x7d, \x7ba: 1\x7d, b)` (reported with `FAILURE_STRING`) and
at the non-literal-first call `Object.assign(Object.assign(\x7b\x7d, a), b)` in
initializer position (reported with `ASSIGNMENT_FAILURE_STRING` under a
side-effect oracle that clears its first argument). -/
theorem check_dispatch_witness :
    check (fun _ => false) nestedSourceFile emptyFirstCall =
      [⟨emptyFirstCall, FAILURE_STRING, createFix emptyFirstCall⟩] ∧
    check (fun _ => false) xVarDecl outerAssignCall =
      [⟨outerAssignCall, ASSIGNMENT_FAILURE_STRING, createFix outerAssignCall⟩] := by
  constructor
  · exact (check_dispatch (fun _ => false) nestedSourceFile emptyFirstCall
      emptyObjArg [litObjArg, bIdentArg] rfl rfl).1 rfl
  · exact (check_dispatch (fun _ => false) xVarDecl outerAssignCall
      innerAssignCall [.mk ⟨.identifier, 46, 47, "b", true, false, 0⟩ []] rfl rfl).2.1
      (by decide) rfl rfl

theorem matchesPattern_iff (n : Node) :
    matchesPattern n = true ↔
      n.kind = NodeKind.callExpression ∧
      n.arguments ≠ [] ∧
      (∃ callee recv nm,
          n.callee = some callee ∧
          callee.kind = NodeKind.propertyAccessExpression ∧
          callee.children = [recv, nm] ∧
          nm.text = "assign" ∧ recv.kind = NodeKind.identifier ∧ recv.text = "Object") ∧
      (∀ a ∈ n.arguments, a.kind ≠ NodeKind.spreadElement) := by
  rw [matchesPattern]
  cases hc : n.callee with
  | none =>
    simp [hc]
  | some callee =>
    rcases hcc : callee.children with _ | ⟨recv, _ | ⟨nm, _ | ⟨x, t⟩⟩⟩ <;>
      simp [hc, hcc, List.any_eq_true, List.isEmpty_iff, and_assoc,
        not_exists, Bool.not_eq_true]

/-- C7: a failure is reported only for a call expression with at least one
argument whose callee is a member access of the exact shape `Object.assign`
and none of whose arguments is a spread element; in particular, a call
containing any spread argument is never reported. -/
theorem failure_requires_shape :
    (∀ (se : Node → Bool) (parent n : Node),
        check se parent n ≠ [] →
        n.kind = NodeKind.callExpression ∧
        n.arguments ≠ [] ∧
        (∃ callee recv nm,
            n.callee = some callee ∧
            callee.kind = NodeKind.propertyAccessExpression ∧
            callee.children = [recv, nm] ∧
            nm.text = "assign" ∧ recv.kind = NodeKind.identifier ∧
            recv.text = "Object") ∧
        (∀ a ∈ n.arguments, a.kind ≠ NodeKind.spreadElement)) ∧
    (∀ (se : Node → Bool) (parent n a : Node),
        a ∈ n.arguments → a.kind = NodeKind.spreadElement →
        check se parent n = []) := by
  constructor
  · intro se parent n h
    by_cases hm : matchesPattern n = true
    · exact (matchesPattern_iff n).mp hm
    · exact absurd (by rw [check, if_neg hm]) h
  · intro se parent n a haMem hak
    by_cases hm : matchesPattern n = true
    · exact absurd hak (((matchesPattern_iff n).mp hm).2.2.2 a haMem)
    · rw [check, if_neg hm]

/-- C7 witness: `failure_requires_shape` instantiated at the call
`Object.assign(...arr)`, whose only argument is a spread element, so no
failure is reported for it under any oracle. -/
theorem failure_requires_shape_witness :
    check (fun _ => false) nestedSourceFile spreadArgCall = [] :=
  failure_requires_shape.2 (fun _ => false) nestedSourceFile spreadArgCall
    (.mk ⟨.spreadElement, 14, 20, "", true, false, 0⟩
      [ .mk ⟨.identifier, 17, 20, "arr", true, false, 0⟩ [] ])
    (by simp [spreadArgCall, Node.arguments, Node.children, objectAssignCallee]) rfl

mutual
theorem walkNode_eq (se : Node → Bool) (parent : Node) :
    (n : Node) → walkNode se parent n =
      (preNode parent n).flatMap (fun pc => check se pc.1 pc.2)
  | .mk d cs => by
    rw [walkNode, preNode, List.flatMap_cons,
      walkList_eq se (.mk d cs) cs]

theorem walkList_eq (se : Node → Bool) (parent : Node) :
    (l : List Node) → walkList se parent l =
      (preList parent l).flatMap (fun pc => check se pc.1 pc.2)
  | [] => by rw [walkList, preList]; rfl
  | c :: cs => by
    rw [walkList, preList, List.flatMap_append,
      walkNode_eq se parent c, walkList_eq se parent cs]
end

/-- C8: the walker visits every descendant of the source file — the failures of
the whole walk are exactly the per-node reports flat-mapped over the
depth-first pre-order (document-order) traversal, so a qualifying call nested
inside another matched call produces its own failure; in particular, on
`const x = Object.assign(Object.assign(\x7b\x7d, a), b)` (under a side-effect
oracle clearing the inner call) the walk yields exactly two failures, outer
call first, in document order. -/
theorem walk_preorder :
    (∀ (se : Node → Bool) (sourceFile : Node),
        walk se sourceFile =
          (preorderWithParents sourceFile).flatMap (fun pc => check se pc.1 pc.2)) ∧
    walk (fun _ => false) nestedSourceFile =
      [⟨outerAssignCall, ASSIGNMENT_FAILURE_STRING, createFix outerAssignCall⟩,
       ⟨innerAssignCall, FAILURE_STRING, createFix innerAssignCall⟩] := by
  constructor
  · intro se sourceFile
    rw [walk, preorderWithParents, walkList_eq]
  · rfl

/-- Two replacements touch disjoint ranges of the original text. -/
def disjointOps (a b : Replacement) : Prop :=
  a.stop ≤ b.start ∨ b.stop ≤ a.start

/-- `Chained lo hi ops`: the replacements in `ops` sit one after another inside
the offset window `[lo, hi]`. -/
def Chained (lo hi : Nat) : List Replacement → Prop
  | [] => lo ≤ hi
  | r :: rest => lo ≤ r.start ∧ Chained r.stop hi rest

theorem Replacement.start_le_stop (r : Replacement) : r.start ≤ r.stop :=
  Nat.le_add_right _ _

theorem chained_le {lo hi : Nat} : ∀ {ops : List Replacement},
    Chained lo hi ops → lo ≤ hi
  | [], h => h
  | r :: _, h =>
    le_trans h.1 (le_trans r.start_le_stop (chained_le h.2))

theorem chained_mono {lo lo' hi : Nat} (hlo : lo' ≤ lo) :
    ∀ {ops : List Replacement}, Chained lo hi ops → Chained lo' hi ops
  | [], h => le_trans hlo h
  | _ :: _, h => ⟨le_trans hlo h.1, h.2⟩

theorem chained_bounds {hi : Nat} : ∀ {ops : List Replacement} {lo : Nat},
    Chained lo hi ops → ∀ r ∈ ops, lo ≤ r.start ∧ r.stop ≤ hi := by
  intro ops
  induction ops with
  | nil => intro _ _ r hr; cases hr
  | cons x xs ih =>
    intro lo h r hr
    rcases List.mem_cons.mp hr with hx | hx
    · subst hx
      exact ⟨h.1, chained_le h.2⟩
    · have := ih h.2 r hx
      exact ⟨le_trans h.1 (le_trans x.start_le_stop this.1), this.2⟩

theorem chained_append {mid hi : Nat} :
    ∀ {l1 : List Replacement} {lo : Nat}, Chained lo mid l1 →
      ∀ {l2 : List Replacement}, Chained mid hi l2 → Chained lo hi (l1 ++ l2)
  | [], _, h1, _, h2 => chained_mono h1 h2
  | _ :: _, _, h1, _, h2 => ⟨h1.1, chained_append h1.2 h2⟩

theorem chained_pairwise_sep {hi : Nat} : ∀ {ops : List Replacement} {lo : Nat},
    Chained lo hi ops → List.Pairwise (fun a b => a.stop ≤ b.start) ops
  | [], _, _ => List.Pairwise.nil
  | _ :: _, _, h =>
    List.Pairwise.cons (fun r hr => ((chained_bounds h.2) r hr).1)
      (chained_pairwise_sep h.2)

theorem opLe_of_sep {a b : Replacement} (h : a.stop ≤ b.start) : opLe a b = true := by
  rw [opLe]
  rcases Nat.lt_or_ge a.start b.start with hlt | hge
  · simp [hlt]
  · have h1 : a.start = b.start := by
      have := a.start_le_stop
      omega
    have h2 : a.stop ≤ b.stop := le_trans h b.start_le_stop
    simp [h1, h2]

theorem chained_sorted {lo hi : Nat} {ops : List Replacement}
    (h : Chained lo hi ops) : List.Pairwise (fun a b => opLe a b = true) ops :=
  (chained_pairwise_sep h).imp (fun hab => opLe_of_sep hab)

theorem chained_pairwise_disjoint {lo hi : Nat} {ops : List Replacement}
    (h : Chained lo hi ops) : List.Pairwise disjointOps ops :=
  (chained_pairwise_sep h).imp (fun hab => Or.inl hab)

theorem insertOp_cons_of_le {r x : Replacement} (xs : List Replacement)
    (h : opLe r x = true) : insertOp r (x :: xs) = r :: x :: xs := by
  rw [insertOp, if_pos h]

theorem insertOp_append_last {r : Replacement} : ∀ {l : List Replacement},
    (∀ x ∈ l, opLe r x = false) → insertOp r l = l ++ [r] := by
  intro l
  induction l with
  | nil => intro _; rfl
  | cons x xs ih =>
    intro h
    rw [insertOp, if_neg (by simp [h x (List.mem_cons_self x xs)]),
      ih (fun y hy => h y (List.mem_cons_of_mem x hy))]
    rfl

theorem sortOps_of_sorted : ∀ {l : List Replacement},
    List.Pairwise (fun a b => opLe a b = true) l → sortOps l = l := by
  intro l
  induction l with
  | nil => intro _; rfl
  | cons x xs ih =>
    intro h
    obtain ⟨hhead, htail⟩ := List.pairwise_cons.mp h
    rw [sortOps, ih htail]
    cases xs with
    | nil => rfl
    | cons y ys =>
      exact insertOp_cons_of_le ys (hhead y (List.mem_cons_self y ys))

theorem slice_split (text : List Char) {p q r : Nat} (hpq : p ≤ q) (hqr : q ≤ r) :
    sliceText text p r = sliceText text p q ++ sliceText text q r := by
  unfold sliceText
  rw [show r - p = (q - p) + (r - q) by omega, List.take_add]
  congr 2
  rw [List.drop_drop]
  congr 1
  omega

theorem slice_nil (text : List Char) (p : Nat) : sliceText text p p = [] := by
  unfold sliceText
  simp

theorem spliceFrom_cons (text : List Char) (p : Nat) (r : Replacement)
    (rest : List Replacement) :
    spliceFrom text p (r :: rest) =
      sliceText text p r.start ++ r.text.data ++ spliceFrom text r.stop rest := rfl

theorem spliceFrom_advance (text : List Char) {hi p q : Nat}
    {ops : List Replacement} (hpq : p ≤ q) (hch : Chained q hi ops)
    (hne : ops ≠ []) :
    spliceFrom text p ops = sliceText text p q ++ spliceFrom text q ops := by
  cases ops with
  | nil => exact absurd rfl hne
  | cons r rest =>
    rw [spliceFrom_cons, spliceFrom_cons, slice_split text hpq hch.1]
    simp [List.append_assoc]

/-- The closing-brace replacement of `createFix`. -/
def closeBraceOp (nodeStop : Nat) : Replacement := ⟨nodeStop - 1, 1, "\x7d"⟩

theorem opLe_closeBrace_false {nodeStop : Nat} {x : Replacement}
    (h : x.stop ≤ nodeStop - 1) : opLe (closeBraceOp nodeStop) x = false := by
  have hx := x.start_le_stop
  have hs : (closeBraceOp nodeStop).start = nodeStop - 1 := rfl
  have hst : (closeBraceOp nodeStop).stop = nodeStop - 1 + 1 := rfl
  rw [opLe, Bool.or_eq_false_iff]
  constructor
  · rw [decide_eq_false_iff_not, hs]
    omega
  · rw [Bool.and_eq_false_iff]
    by_cases he : (closeBraceOp nodeStop).start = x.start
    · right
      rw [decide_eq_false_iff_not, hst]
      rw [hs] at he
      omega
    · left
      exact beq_eq_false_iff_ne.mpr he

/-- All characters of `s` are whitespace (the trivia the host scanner skips
between tokens, idealized to whitespace). -/
def TriviaText (s : List Char) : Prop := ∀ c ∈ s, c.isWhitespace = true

/-- `s` is an argument separator as it appears in the original text: optional
whitespace, one comma, optional whitespace. -/
def SepText (s : List Char) : Prop :=
  ∃ w1 w2, TriviaText w1 ∧ TriviaText w2 ∧ s = w1 ++ ',' :: w2

/-- Well-formedness of a single argument with respect to the original text.
The parameters `P` and `S` are the host grammar's judgments "is a valid
object-literal member list fragment" and "is a valid expression in spread
position": the rule consumes the parser's tree, so the validity of the
argument texts themselves is the external parser's guarantee. -/
def ArgWF (P S : List Char → Prop) (text : List Char) (arg : Node) : Prop :=
  if arg.kind = NodeKind.objectLiteralExpression then
    if arg.children.isEmpty then
      arg.start < arg.stop
    else
      arg.start + 2 ≤ lastStop arg.children ∧ lastStop arg.children ≤ arg.stop ∧
      P (sliceText text (arg.start + 1) (lastStop arg.children))
  else
    arg.start < arg.stop ∧
    (if needsParens arg then S ('(' :: (sliceText text arg.start arg.stop ++ [')']))
     else S (sliceText text arg.start arg.stop))

/-- Well-formedness of the argument list of a call with respect to the
original text: each argument is well formed, consecutive arguments are
separated by exactly one comma surrounded by trivia, and the stretch after the
last argument up to the closing parenthesis is the trailing comma (when the
list has one) followed by trivia. -/
def ArgsWF (P S : List Char → Prop) (text : List Char) (nodeStop : Nat)
    (htc : Bool) (argsEnd : Nat) : List Node → Prop
  | [] => True
  | [arg] =>
      ArgWF P S text arg ∧
      (if htc then
         arg.stop ≤ argsEnd ∧ argsEnd ≤ nodeStop - 1 ∧
         SepText (sliceText text arg.stop argsEnd) ∧
         TriviaText (sliceText text argsEnd (nodeStop - 1))
       else
         arg.stop ≤ nodeStop - 1 ∧
         TriviaText (sliceText text arg.stop (nodeStop - 1)))
  | arg :: next :: rest =>
      ArgWF P S text arg ∧ arg.stop ≤ next.start ∧
      SepText (sliceText text arg.stop next.start) ∧
      ArgsWF P S text nodeStop htc argsEnd (next :: rest)

/-- The text an argument contributes to the fixed object literal: the interior
of a non-empty object literal, or the spread-marked (and possibly
parenthesized) original argument text. -/
def renderFrag (text : List Char) (arg : Node) : List Char :=
  if arg.kind = NodeKind.objectLiteralExpression then
    sliceText text (arg.start + 1) (lastStop arg.children)
  else if needsParens arg then
    '.' :: '.' :: '.' :: '(' :: (sliceText text arg.start arg.stop ++ [')'])
  else
    '.' :: '.' :: '.' :: sliceText text arg.start arg.stop

/-- The body of the fixed object literal, computed directly from the original
text and the argument list: fragments and surviving separator stretches, in
order. -/
def renderArgs (text : List Char) (nodeStop : Nat) (htc : Bool) (argsEnd : Nat) :
    List Node → List Char
  | [] => []
  | [arg] =>
      if arg.kind = NodeKind.objectLiteralExpression ∧ arg.children.isEmpty then
        (if htc then sliceText text argsEnd (nodeStop - 1)
         else sliceText text arg.stop (nodeStop - 1))
      else
        renderFrag text arg ++ sliceText text arg.stop (nodeStop - 1)
  | arg :: next :: rest =>
      if arg.kind = NodeKind.objectLiteralExpression ∧ arg.children.isEmpty then
        renderArgs text nodeStop htc argsEnd (next :: rest)
      else
        renderFrag text arg ++ sliceText text arg.stop next.start ++
          renderArgs text nodeStop htc argsEnd (next :: rest)

/-- A comma-separated sequence of object-literal members over the abstract
member-fragment judgment `P` and spread-expression judgment `S`. -/
inductive ElemsText (P S : List Char → Prop) : List Char → Prop where
  | props (s : List Char) : P s → ElemsText P S s
  | spread (s : List Char) : S s → ElemsText P S ('.' :: '.' :: '.' :: s)
  | comma (a w1 w2 b : List Char) : ElemsText P S a → TriviaText w1 →
      TriviaText w2 → ElemsText P S b → ElemsText P S (a ++ w1 ++ ',' :: w2 ++ b)

/-- A valid interior of an object-literal expression: only trivia, or a member
sequence followed by trivia, with an optional trailing comma. -/
inductive BodyText (P S : List Char → Prop) : List Char → Prop where
  | onlyWs (w : List Char) : TriviaText w → BodyText P S w
  | elems (e w : List Char) : ElemsText P S e → TriviaText w → BodyText P S (e ++ w)
  | elemsTrailing (e w1 w2 : List Char) : ElemsText P S e → TriviaText w1 →
      TriviaText w2 → BodyText P S (e ++ w1 ++ ',' :: w2)

/-- `t` parses as an object-literal expression: an opening brace, a valid
interior, and a closing brace. -/
def ObjLitText (P S : List Char → Prop) (t : List Char) : Prop :=
  ∃ body, BodyText P S body ∧ t = '\x7b' :: (body ++ ['\x7d'])

theorem ArgsWF_one (P S : List Char → Prop) (text : List Char) (nodeStop : Nat)
    (htc : Bool) (argsEnd : Nat) (arg : Node) :
    ArgsWF P S text nodeStop htc argsEnd [arg] =
      (ArgWF P S text arg ∧
       (if htc then
          arg.stop ≤ argsEnd ∧ argsEnd ≤ nodeStop - 1 ∧
          SepText (sliceText text arg.stop argsEnd) ∧
          TriviaText (sliceText text argsEnd (nodeStop - 1))
        else
          arg.stop ≤ nodeStop - 1 ∧
          TriviaText (sliceText text arg.stop (nodeStop - 1)))) := rfl

theorem ArgsWF_cons2 (P S : List Char → Prop) (text : List Char) (nodeStop : Nat)
    (htc : Bool) (argsEnd : Nat) (arg next : Node) (rest : List Node) :
    ArgsWF P S text nodeStop htc argsEnd (arg :: next :: rest) =
      (ArgWF P S text arg ∧ arg.stop ≤ next.start ∧
       SepText (sliceText text arg.stop next.start) ∧
       ArgsWF P S text nodeStop htc argsEnd (next :: rest)) := rfl

theorem argWF_start_lt_stop {P S : List Char → Prop} {text : List Char}
    {arg : Node} (h : ArgWF P S text arg) : arg.start < arg.stop := by
  rw [ArgWF] at h
  by_cases hk : arg.kind = NodeKind.objectLiteralExpression
  · rw [if_pos hk] at h
    by_cases hc : arg.children.isEmpty
    · rwa [if_pos hc] at h
    · rw [if_neg hc] at h
      omega
  · rw [if_neg hk] at h
    exact h.1

theorem fixArgs_chained (P S : List Char → Prop) (text : List Char)
    (nodeStop : Nat) (htc : Bool) (argsEnd : Nat) :
    ∀ (rest : List Node) (arg : Node),
      ArgsWF P S text nodeStop htc argsEnd (arg :: rest) →
      Chained arg.start (nodeStop - 1) (fixArgs htc argsEnd (arg :: rest)) := by
  intro rest
  induction rest with
  | nil =>
    intro arg hwf
    rw [ArgsWF_one] at hwf
    obtain ⟨hargwf, htail⟩ := hwf
    have hlt : arg.start < arg.stop := argWF_start_lt_stop hargwf
    have hstop : arg.stop ≤ nodeStop - 1 := by
      by_cases hhtc : htc
      · rw [if_pos hhtc] at htail; omega
      · rw [if_neg hhtc] at htail; exact htail.1
    rw [fixArgs_cons, fixArgs]
    by_cases hk : arg.kind = NodeKind.objectLiteralExpression
    · rw [if_pos hk]
      by_cases hc : arg.children.isEmpty
      · rw [if_pos hc]
        by_cases hhtc : htc
        · rw [if_pos hhtc] at htail ⊢
          simp only [List.nil_append, Chained, Replacement.deleteFromTo,
            Replacement.stop]
          omega
        · rw [if_neg hhtc] at htail ⊢
          simp only [List.nil_append, Chained, Replacement.deleteFromTo,
            Replacement.stop]
          omega
      · rw [if_neg hc]
        rw [ArgWF, if_pos hk, if_neg hc] at hargwf
        simp only [List.nil_append, Chained, Replacement.deleteFromTo,
          Replacement.deleteText, Replacement.stop]
        omega
    · rw [if_neg hk]
      by_cases hp : needsParens arg
      · simp only [hp, if_pos, List.nil_append, Chained, Replacement.appendText,
          Replacement.stop]
        omega
      · simp only [hp, Bool.false_eq_true, if_neg, List.nil_append, Chained,
          Replacement.appendText, Replacement.stop]
        omega
  | cons next rest2 ih =>
    intro arg hwf
    rw [ArgsWF_cons2] at hwf
    obtain ⟨hargwf, hsep, _, hwfrest⟩ := hwf
    have hlt : arg.start < arg.stop := argWF_start_lt_stop hargwf
    have hchain2 := ih next hwfrest
    rw [fixArgs_cons]
    refine chained_append ?_ hchain2
    by_cases hk : arg.kind = NodeKind.objectLiteralExpression
    · rw [if_pos hk]
      by_cases hc : arg.children.isEmpty
      · rw [if_pos hc]
        simp only [Chained, Replacement.deleteFromTo, Replacement.stop]
        omega
      · rw [if_neg hc]
        rw [ArgWF, if_pos hk, if_neg hc] at hargwf
        simp only [Chained, Replacement.deleteFromTo, Replacement.deleteText,
          Replacement.stop]
        omega
    · rw [if_neg hk]
      by_cases hp : needsParens arg
      · simp only [hp, if_pos, Chained, Replacement.appendText, Replacement.stop]
        omega
      · simp only [hp, Bool.false_eq_true, if_neg, Chained,
          Replacement.appendText, Replacement.stop]
        omega

theorem renderArgs_one (text : List Char) (nodeStop : Nat) (htc : Bool)
    (argsEnd : Nat) (arg : Node) :
    renderArgs text nodeStop htc argsEnd [arg] =
      (if arg.kind = NodeKind.objectLiteralExpression ∧ arg.children.isEmpty then
        (if htc then sliceText text argsEnd (nodeStop - 1)
         else sliceText text arg.stop (nodeStop - 1))
      else
        renderFrag text arg ++ sliceText text arg.stop (nodeStop - 1)) := rfl

theorem renderArgs_cons2 (text : List Char) (nodeStop : Nat) (htc : Bool)
    (argsEnd : Nat) (arg next : Node) (rest : List Node) :
    renderArgs text nodeStop htc argsEnd (arg :: next :: rest) =
      (if arg.kind = NodeKind.objectLiteralExpression ∧ arg.children.isEmpty then
        renderArgs text nodeStop htc argsEnd (next :: rest)
      else
        renderFrag text arg ++ sliceText text arg.stop next.start ++
          renderArgs text nodeStop htc argsEnd (next :: rest)) := rfl

theorem spliceFrom_single_cb (text : List Char) (p nodeStop : Nat)
    (hstop : 1 ≤ nodeStop) :
    spliceFrom text p [closeBraceOp nodeStop] =
      sliceText text p (nodeStop - 1) ++ '\x7d' :: text.drop nodeStop := by
  rw [spliceFrom_cons]
  have h1 : (closeBraceOp nodeStop).start = nodeStop - 1 := rfl
  have h2 : (closeBraceOp nodeStop).stop = nodeStop := by
    simp only [closeBraceOp, Replacement.stop]; omega
  rw [h1, h2]
  simp [closeBraceOp, spliceFrom]

theorem argsWF_head {P S : List Char → Prop} {text : List Char} {nodeStop : Nat}
    {htc : Bool} {argsEnd : Nat} {arg : Node} {rest : List Node}
    (h : ArgsWF P S text nodeStop htc argsEnd (arg :: rest)) :
    ArgWF P S text arg := by
  cases rest with
  | nil => rw [ArgsWF_one] at h; exact h.1
  | cons next rest2 => rw [ArgsWF_cons2] at h; exact h.1

theorem chained_fix_cb (P S : List Char → Prop) (text : List Char)
    (nodeStop : Nat) (htc : Bool) (argsEnd : Nat) (hstop : 1 ≤ nodeStop)
    (rest : List Node) (arg : Node)
    (hwf : ArgsWF P S text nodeStop htc argsEnd (arg :: rest)) :
    Chained arg.start nodeStop
      (fixArgs htc argsEnd (arg :: rest) ++ [closeBraceOp nodeStop]) := by
  refine chained_append (fixArgs_chained P S text nodeStop htc argsEnd rest arg hwf) ?_
  refine ⟨le_refl _, ?_⟩
  simp only [Chained, closeBraceOp, Replacement.stop]
  omega

theorem splice_args (P S : List Char → Prop) (text : List Char)
    (nodeStop : Nat) (htc : Bool) (argsEnd : Nat) (hstop : 1 ≤ nodeStop) :
    ∀ (rest : List Node) (arg : Node),
      ArgsWF P S text nodeStop htc argsEnd (arg :: rest) →
      spliceFrom text arg.start
          (fixArgs htc argsEnd (arg :: rest) ++ [closeBraceOp nodeStop]) =
        renderArgs text nodeStop htc argsEnd (arg :: rest) ++
          '\x7d' :: text.drop nodeStop := by
  intro rest
  induction rest with
  | nil =>
    intro arg hwf
    rw [ArgsWF_one] at hwf
    obtain ⟨hargwf, htail⟩ := hwf
    have hlt : arg.start < arg.stop := argWF_start_lt_stop hargwf
    have hstop2 : arg.stop ≤ nodeStop - 1 := by
      by_cases hhtc : htc
      · rw [if_pos hhtc] at htail; omega
      · rw [if_neg hhtc] at htail; exact htail.1
    rw [fixArgs_cons, fixArgs, List.append_nil, renderArgs_one]
    by_cases hk : arg.kind = NodeKind.objectLiteralExpression
    · by_cases hc : arg.children.isEmpty
      · -- empty object literal, last argument
        have hops : (if arg.kind = NodeKind.objectLiteralExpression then
            if arg.children.isEmpty then
              [Replacement.deleteFromTo arg.start
                (match ([] : List Node) with
                 | next :: _ => next.start
                 | [] => if htc then argsEnd else arg.stop)]
            else
              [Replacement.deleteText arg.start 1,
               Replacement.deleteFromTo (lastStop arg.children) arg.stop]
          else
            Replacement.appendText arg.start
                (if needsParens arg then "...(" else "...") ::
              (if needsParens arg then [Replacement.appendText arg.stop ")"] else [])) =
            [Replacement.deleteFromTo arg.start (if htc then argsEnd else arg.stop)] := by
          simp [hk, hc]
        rw [hops, if_pos (And.intro hk hc)]
        by_cases hhtc : htc
        · rw [if_pos hhtc] at htail ⊢
          rw [if_pos hhtc]
          obtain ⟨h1, h2, _, _⟩ := htail
          rw [List.cons_append, List.nil_append, spliceFrom_cons]
          rw [show (Replacement.deleteFromTo arg.start argsEnd).start = arg.start
              from rfl]
          rw [show (Replacement.deleteFromTo arg.start argsEnd).stop = argsEnd by
            simp only [Replacement.deleteFromTo, Replacement.stop]; omega]
          rw [slice_nil, spliceFrom_single_cb text argsEnd nodeStop hstop]
          simp [Replacement.deleteFromTo]
        · rw [if_neg hhtc] at htail ⊢
          rw [if_neg hhtc]
          rw [List.cons_append, List.nil_append, spliceFrom_cons]
          rw [show (Replacement.deleteFromTo arg.start arg.stop).start = arg.start
              from rfl]
          rw [show (Replacement.deleteFromTo arg.start arg.stop).stop = arg.stop by
            simp only [Replacement.deleteFromTo, Replacement.stop]; omega]
          rw [slice_nil, spliceFrom_single_cb text arg.stop nodeStop hstop]
          simp [Replacement.deleteFromTo]
      · -- non-empty object literal, last argument
        rw [if_pos hk, if_neg hc, if_neg (fun h : arg.kind = NodeKind.objectLiteralExpression ∧ arg.children.isEmpty = true => hc h.2)]
        rw [ArgWF, if_pos hk, if_neg hc] at hargwf
        obtain ⟨hl1, hl2, _⟩ := hargwf
        rw [List.cons_append, List.cons_append, List.nil_append, spliceFrom_cons]
        rw [show (Replacement.deleteText arg.start 1).start = arg.start from rfl]
        rw [show (Replacement.deleteText arg.start 1).stop = arg.start + 1 from rfl]
        rw [slice_nil, spliceFrom_cons]
        rw [show (Replacement.deleteFromTo (lastStop arg.children) arg.stop).start =
            lastStop arg.children from rfl]
        rw [show (Replacement.deleteFromTo (lastStop arg.children) arg.stop).stop =
            arg.stop by
          simp only [Replacement.deleteFromTo, Replacement.stop]; omega]
        rw [spliceFrom_single_cb text arg.stop nodeStop hstop]
        rw [renderFrag, if_pos hk]
        simp [Replacement.deleteText, Replacement.deleteFromTo, List.append_assoc]
    · -- non-literal last argument
        rw [if_neg hk, if_neg (fun h : arg.kind = NodeKind.objectLiteralExpression ∧ arg.children.isEmpty = true => hk h.1)]
        rw [ArgWF, if_neg hk] at hargwf
        by_cases hp : needsParens arg
        · rw [if_pos hp, if_pos hp, List.cons_append, List.cons_append,
            List.nil_append, spliceFrom_cons]
          rw [show (Replacement.appendText arg.start "...(").start = arg.start
              from rfl]
          rw [show (Replacement.appendText arg.start "...(").stop = arg.start by
            simp only [Replacement.appendText, Replacement.stop]; omega]
          rw [slice_nil, spliceFrom_cons]
          rw [show (Replacement.appendText arg.stop ")").start = arg.stop from rfl]
          rw [show (Replacement.appendText arg.stop ")").stop = arg.stop by
            simp only [Replacement.appendText, Replacement.stop]; omega]
          rw [spliceFrom_single_cb text arg.stop nodeStop hstop]
          rw [renderFrag, if_neg hk, if_pos hp]
          simp [Replacement.appendText, List.append_assoc]
        · rw [if_neg hp, if_neg hp, List.cons_append, List.nil_append,
            spliceFrom_cons]
          rw [show (Replacement.appendText arg.start "...").start = arg.start
              from rfl]
          rw [show (Replacement.appendText arg.start "...").stop = arg.start by
            simp only [Replacement.appendText, Replacement.stop]; omega]
          rw [slice_nil, spliceFrom_single_cb text arg.start nodeStop hstop]
          rw [renderFrag, if_neg hk, if_neg hp]
          rw [slice_split text (le_of_lt hlt) hstop2]
          simp [Replacement.appendText, List.append_assoc]
  | cons next rest2 ih =>
    intro arg hwf
    rw [ArgsWF_cons2] at hwf
    obtain ⟨hargwf, hsep, _, hwfrest⟩ := hwf
    have hlt : arg.start < arg.stop := argWF_start_lt_stop hargwf
    have hnext : next.start < next.stop := argWF_start_lt_stop (argsWF_head hwfrest)
    have hchain : Chained next.start nodeStop
        (fixArgs htc argsEnd (next :: rest2) ++ [closeBraceOp nodeStop]) :=
      chained_fix_cb P S text nodeStop htc argsEnd hstop rest2 next hwfrest
    have hne : fixArgs htc argsEnd (next :: rest2) ++ [closeBraceOp nodeStop] ≠ [] :=
      List.append_ne_nil_of_right_ne_nil _ (List.cons_ne_nil _ _)
    have hih := ih next hwfrest
    rw [fixArgs_cons, renderArgs_cons2, List.append_assoc]
    by_cases hk : arg.kind = NodeKind.objectLiteralExpression
    · by_cases hc : arg.children.isEmpty
      · -- empty object literal followed by another argument
        have hops : (if arg.kind = NodeKind.objectLiteralExpression then
            if arg.children.isEmpty then
              [Replacement.deleteFromTo arg.start
                (match next :: rest2 with
                 | next1 :: _ => next1.start
                 | [] => if htc then argsEnd else arg.stop)]
            else
              [Replacement.deleteText arg.start 1,
               Replacement.deleteFromTo (lastStop arg.children) arg.stop]
          else
            Replacement.appendText arg.start
                (if needsParens arg then "...(" else "...") ::
              (if needsParens arg then [Replacement.appendText arg.stop ")"] else [])) =
            [Replacement.deleteFromTo arg.start next.start] := by
          simp [hk, hc]
        rw [hops, if_pos (And.intro hk hc)]
        rw [List.cons_append, List.nil_append, spliceFrom_cons]
        rw [show (Replacement.deleteFromTo arg.start next.start).start = arg.start
            from rfl]
        rw [show (Replacement.deleteFromTo arg.start next.start).stop = next.start by
          simp only [Replacement.deleteFromTo, Replacement.stop]; omega]
        rw [slice_nil, hih]
        simp [Replacement.deleteFromTo]
      · -- non-empty object literal followed by another argument
        rw [if_pos hk, if_neg hc, if_neg (fun h : arg.kind = NodeKind.objectLiteralExpression ∧ arg.children.isEmpty = true => hc h.2)]
        rw [ArgWF, if_pos hk, if_neg hc] at hargwf
        obtain ⟨hl1, hl2, _⟩ := hargwf
        rw [List.cons_append, List.cons_append, List.nil_append, spliceFrom_cons]
        rw [show (Replacement.deleteText arg.start 1).start = arg.start from rfl]
        rw [show (Replacement.deleteText arg.start 1).stop = arg.start + 1 from rfl]
        rw [slice_nil, spliceFrom_cons]
        rw [show (Replacement.deleteFromTo (lastStop arg.children) arg.stop).start =
            lastStop arg.children from rfl]
        rw [show (Replacement.deleteFromTo (lastStop arg.children) arg.stop).stop =
            arg.stop by
          simp only [Replacement.deleteFromTo, Replacement.stop]; omega]
        rw [spliceFrom_advance text hsep hchain hne, hih]
        rw [renderFrag, if_pos hk]
        simp [Replacement.deleteText, Replacement.deleteFromTo, List.append_assoc]
    · -- non-literal argument followed by another argument
        rw [if_neg hk, if_neg (fun h : arg.kind = NodeKind.objectLiteralExpression ∧ arg.children.isEmpty = true => hk h.1)]
        by_cases hp : needsParens arg
        · rw [if_pos hp, if_pos hp, List.cons_append, List.cons_append,
            List.nil_append, spliceFrom_cons]
          rw [show (Replacement.appendText arg.start "...(").start = arg.start
              from rfl]
          rw [show (Replacement.appendText arg.start "...(").stop = arg.start by
            simp only [Replacement.appendText, Replacement.stop]; omega]
          rw [slice_nil, spliceFrom_cons]
          rw [show (Replacement.appendText arg.stop ")").start = arg.stop from rfl]
          rw [show (Replacement.appendText arg.stop ")").stop = arg.stop by
            simp only [Replacement.appendText, Replacement.stop]; omega]
          rw [spliceFrom_advance text hsep hchain hne, hih]
          rw [renderFrag, if_neg hk, if_pos hp]
          simp [Replacement.appendText, List.append_assoc]
        · rw [if_neg hp, if_neg hp, List.cons_append, List.nil_append,
            spliceFrom_cons]
          rw [show (Replacement.appendText arg.start "...").start = arg.start
              from rfl]
          rw [show (Replacement.appendText arg.start "...").stop = arg.start by
            simp only [Replacement.appendText, Replacement.stop]; omega]
          rw [slice_nil,
            spliceFrom_advance text (le_trans (le_of_lt hlt) hsep) hchain hne, hih]
          rw [renderFrag, if_neg hk, if_neg hp]
          rw [slice_split text (le_of_lt hlt) hsep]
          simp [Replacement.appendText, List.append_assoc]

theorem trivia_append {w1 w2 : List Char} (h1 : TriviaText w1) (h2 : TriviaText w2) :
    TriviaText (w1 ++ w2) := by
  intro c hc
  rcases List.mem_append.mp hc with h | h
  · exact h1 c h
  · exact h2 c h

theorem renderFrag_elems {P S : List Char → Prop} {text : List Char} {arg : Node}
    (h : ArgWF P S text arg)
    (hne : ¬(arg.kind = NodeKind.objectLiteralExpression ∧
      arg.children.isEmpty = true)) :
    ElemsText P S (renderFrag text arg) := by
  rw [ArgWF] at h
  rw [renderFrag]
  by_cases hk : arg.kind = NodeKind.objectLiteralExpression
  · rw [if_pos hk] at h ⊢
    have hc : ¬ arg.children.isEmpty = true := fun hc => hne ⟨hk, hc⟩
    rw [if_neg hc] at h
    exact ElemsText.props _ h.2.2
  · rw [if_neg hk] at h ⊢
    by_cases hp : needsParens arg
    · rw [if_pos hp] at h ⊢
      exact ElemsText.spread _ h.2
    · rw [if_neg hp] at h ⊢
      exact ElemsText.spread _ h.2

theorem bodyText_cons {P S : List Char → Prop} {f sep t : List Char}
    (hf : ElemsText P S f) (hsep : SepText sep) (ht : BodyText P S t) :
    BodyText P S (f ++ sep ++ t) := by
  obtain ⟨w1, w2, hw1, hw2, rfl⟩ := hsep
  cases ht with
  | onlyWs w hw =>
    have hb := BodyText.elemsTrailing f w1 _ hf hw1 (trivia_append hw2 hw)
    simpa [List.append_assoc, List.cons_append] using hb
  | elems e w he hw =>
    have hb := BodyText.elems _ w (ElemsText.comma f w1 w2 e hf hw1 hw2 he) hw
    simpa [List.append_assoc, List.cons_append] using hb
  | elemsTrailing e w1' w2' he hw1' hw2' =>
    have hb := BodyText.elemsTrailing _ w1' w2'
      (ElemsText.comma f w1 w2 e hf hw1 hw2 he) hw1' hw2'
    simpa [List.append_assoc, List.cons_append] using hb

theorem renderArgs_body (P S : List Char → Prop) (text : List Char)
    (nodeStop : Nat) (htc : Bool) (argsEnd : Nat) :
    ∀ (rest : List Node) (arg : Node),
      ArgsWF P S text nodeStop htc argsEnd (arg :: rest) →
      BodyText P S (renderArgs text nodeStop htc argsEnd (arg :: rest)) := by
  intro rest
  induction rest with
  | nil =>
    intro arg hwf
    rw [ArgsWF_one] at hwf
    obtain ⟨hargwf, htail⟩ := hwf
    rw [renderArgs_one]
    by_cases hec : arg.kind = NodeKind.objectLiteralExpression ∧
        arg.children.isEmpty = true
    · rw [if_pos hec]
      by_cases hhtc : htc
      · rw [if_pos hhtc] at htail ⊢
        exact BodyText.onlyWs _ htail.2.2.2
      · rw [if_neg hhtc] at htail ⊢
        exact BodyText.onlyWs _ htail.2
    · rw [if_neg hec]
      have hfrag := renderFrag_elems hargwf hec
      by_cases hhtc : htc
      · rw [if_pos hhtc] at htail
        obtain ⟨h1, h2, hsep, htriv⟩ := htail
        rw [slice_split text h1 h2]
        obtain ⟨w1, w2, hw1, hw2, hseq⟩ := hsep
        rw [hseq]
        have hb := BodyText.elemsTrailing (renderFrag text arg) w1
          (w2 ++ sliceText text argsEnd (nodeStop - 1)) hfrag hw1
          (trivia_append hw2 htriv)
        simpa [List.append_assoc, List.cons_append] using hb
      · rw [if_neg hhtc] at htail
        exact BodyText.elems _ _ hfrag htail.2
  | cons next rest2 ih =>
    intro arg hwf
    rw [ArgsWF_cons2] at hwf
    obtain ⟨hargwf, hsep0, hsep, hwfrest⟩ := hwf
    rw [renderArgs_cons2]
    by_cases hec : arg.kind = NodeKind.objectLiteralExpression ∧
        arg.children.isEmpty = true
    · rw [if_pos hec]
      exact ih next hwfrest
    · rw [if_neg hec]
      have hb := bodyText_cons (renderFrag_elems hargwf hec) hsep (ih next hwfrest)
      simpa [List.append_assoc, List.cons_append] using hb

theorem createFix_eq (n a0 : Node) (rest : List Node) (ha : n.arguments = a0 :: rest) :
    createFix n =
      Replacement.replaceFromTo n.start a0.start "\x7b" :: closeBraceOp n.stop ::
        fixArgs n.hasTrailingComma n.argsEnd (a0 :: rest) := by
  simp only [createFix, ha, closeBraceOp]

theorem openBrace_stop (n a0 : Node) (h0 : n.start ≤ a0.start) :
    (Replacement.replaceFromTo n.start a0.start "\x7b").stop = a0.start := by
  simp only [Replacement.replaceFromTo, Replacement.stop]
  omega

theorem sortOps_createFix (P S : List Char → Prop) (text : List Char)
    (n a0 : Node) (rest : List Node) (ha : n.arguments = a0 :: rest)
    (h0 : n.start < a0.start)
    (hwf : ArgsWF P S text n.stop n.hasTrailingComma n.argsEnd (a0 :: rest)) :
    sortOps (createFix n) =
      Replacement.replaceFromTo n.start a0.start "\x7b" ::
        (fixArgs n.hasTrailingComma n.argsEnd (a0 :: rest) ++
          [closeBraceOp n.stop]) := by
  have hchain := fixArgs_chained P S text n.stop n.hasTrailingComma n.argsEnd rest a0 hwf
  have hbstop := openBrace_stop n a0 (le_of_lt h0)
  rw [createFix_eq n a0 rest ha, sortOps, sortOps,
    sortOps_of_sorted (chained_sorted hchain)]
  rw [insertOp_append_last
    (fun x hx => opLe_closeBrace_false ((chained_bounds hchain x hx).2))]
  cases hfix : fixArgs n.hasTrailingComma n.argsEnd (a0 :: rest) with
  | nil =>
    rw [List.nil_append]
    refine insertOp_cons_of_le _ (opLe_of_sep ?_)
    rw [hbstop]
    have := chained_le hchain
    rw [show (closeBraceOp n.stop).start = n.stop - 1 from rfl]
    omega
  | cons x xs =>
    rw [List.cons_append]
    refine insertOp_cons_of_le _ (opLe_of_sep ?_)
    rw [hbstop]
    have hx := chained_bounds hchain x (by rw [hfix]; exact List.mem_cons_self x xs)
    exact hx.1

theorem createFix_pairwise (P S : List Char → Prop) (text : List Char)
    (n a0 : Node) (rest : List Node) (ha : n.arguments = a0 :: rest)
    (h0 : n.start < a0.start)
    (hwf : ArgsWF P S text n.stop n.hasTrailingComma n.argsEnd (a0 :: rest)) :
    List.Pairwise disjointOps (createFix n) := by
  have hchain := fixArgs_chained P S text n.stop n.hasTrailingComma n.argsEnd rest a0 hwf
  have hbstop := openBrace_stop n a0 (le_of_lt h0)
  have hlohi := chained_le hchain
  rw [createFix_eq n a0 rest ha]
  refine List.Pairwise.cons ?_ (List.Pairwise.cons ?_ (chained_pairwise_disjoint hchain))
  · intro r hr
    rcases List.mem_cons.mp hr with hcb | hop
    · left
      rw [hbstop, hcb]
      rw [show (closeBraceOp n.stop).start = n.stop - 1 from rfl]
      omega
    · left
      rw [hbstop]
      exact (chained_bounds hchain r hop).1
  · intro r hr
    right
    rw [show (closeBraceOp n.stop).start = n.stop - 1 from rfl]
    exact (chained_bounds hchain r hr).2

/-- C2: for every qualifying call, the replacements of the produced fix are
pairwise non-overlapping ranges over the original text, and applying all of
them simultaneously, by offset, replaces the call's span with a text that
parses as a valid object-literal expression (relative to the host grammar's
judgments `P` for member-list fragments and `S` for spread operands, which the
well-formedness of the parsed tree supplies), leaving the surrounding text
unchanged. -/
theorem createFix_disjoint_valid (P S : List Char → Prop) (text : List Char)
    (n a0 : Node) (rest : List Node)
    (_hm : matchesPattern n = true)
    (ha : n.arguments = a0 :: rest)
    (h0 : n.start < a0.start) (hstop : 1 ≤ n.stop)
    (hwf : ArgsWF P S text n.stop n.hasTrailingComma n.argsEnd (a0 :: rest)) :
    List.Pairwise disjointOps (createFix n) ∧
    ∃ objText, ObjLitText P S objText ∧
      applyEdits ⟨text⟩ (createFix n) =
        ⟨text.take n.start ++ objText ++ text.drop n.stop⟩ := by
  refine ⟨createFix_pairwise P S text n a0 rest ha h0 hwf, ?_⟩
  refine ⟨'\x7b' :: (renderArgs text n.stop n.hasTrailingComma n.argsEnd (a0 :: rest)
      ++ ['\x7d']), ?_, ?_⟩
  · exact ⟨renderArgs text n.stop n.hasTrailingComma n.argsEnd (a0 :: rest),
      renderArgs_body P S text n.stop n.hasTrailingComma n.argsEnd rest a0 hwf, rfl⟩
  · rw [applyEdits]
    refine congrArg String.mk ?_
    rw [show (String.mk text).data = text from rfl]
    rw [sortOps_createFix P S text n a0 rest ha h0 hwf]
    rw [spliceFrom_cons]
    rw [show (Replacement.replaceFromTo n.start a0.start "\x7b").start = n.start
        from rfl]
    rw [openBrace_stop n a0 (le_of_lt h0)]
    rw [splice_args P S text n.stop n.hasTrailingComma n.argsEnd hstop rest a0 hwf]
    rw [show sliceText text 0 n.start = text.take n.start by
      simp [sliceText]]
    simp [List.append_assoc, List.cons_append, Replacement.replaceFromTo]

instance (s : List Char) : Decidable (TriviaText s) :=
  List.decidableBAll _ s

/-- C2 witness: `createFix_disjoint_valid` instantiated at the concrete call
`Object.assign(\x7b\x7d, \x7ba: 1\x7d, b)`, with the member-fragment judgment
holding of `a: 1` and the spread-operand judgment holding of `b`. -/
theorem createFix_disjoint_valid_witness :
    List.Pairwise disjointOps (createFix emptyFirstCall) ∧
    ∃ objText, ObjLitText (fun s => s = "a: 1".data) (fun s => s = ['b']) objText ∧
      applyEdits ⟨emptyFirstText.data⟩ (createFix emptyFirstCall) =
        ⟨emptyFirstText.data.take 0 ++ objText ++ emptyFirstText.data.drop 28⟩ := by
  refine createFix_disjoint_valid (fun s => s = "a: 1".data) (fun s => s = ['b'])
    emptyFirstText.data emptyFirstCall emptyObjArg [litObjArg, bIdentArg]
    rfl rfl (by decide) (by decide) ?_
  rw [ArgsWF_cons2, ArgsWF_cons2, ArgsWF_one]
  refine ⟨?_, by decide, ⟨[], [' '], by decide, by decide, by decide⟩,
    ?_, by decide, ⟨[], [' '], by decide, by decide, by decide⟩,
    ?_, ?_⟩
  · rw [ArgWF,
      if_pos (show emptyObjArg.kind = NodeKind.objectLiteralExpression from rfl),
      if_pos (show emptyObjArg.children.isEmpty = true from rfl)]
    decide
  · rw [ArgWF,
      if_pos (show litObjArg.kind = NodeKind.objectLiteralExpression from rfl),
      if_neg (show ¬ litObjArg.children.isEmpty = true by decide)]
    exact ⟨by decide, by decide, by decide⟩
  · rw [ArgWF,
      if_neg (show ¬ bIdentArg.kind = NodeKind.objectLiteralExpression by decide),
      if_neg (show ¬ needsParens bIdentArg = true by decide)]
    exact ⟨by decide, by decide⟩
  · rw [if_neg (show ¬ emptyFirstCall.hasTrailingComma = true by decide)]
    exact ⟨by decide, by decide⟩
